import Mathlib

/-!
Verification of the QuickJS binary serialization decoder/encoder
(`serde` Go package). The byte stream is modelled as a `List Nat` of
byte values; readers are state-passing functions that consume a prefix
of the stream. Machine integers are modelled as `Nat`/`Int` with the
bit operations of the source written as explicit `%`, `/` and `*`
(`b & 0x7f` is `b % 128`, `b >> 1` is `b / 2`, `x << s` is `x * 2^s`).
Go strings are byte sequences (`List Nat`). IEEE floats are carried as
their raw little-endian bit patterns, which is exactly what the decoder
reads; no claim depends on float arithmetic. The stream semantics are
those of `bytes.Reader`, the reader type used by the package tests:
`Read` on a non-empty stream returns up to the requested count of
bytes, `Read` on an empty stream fails with end of file.

Go panics recovered by the public entry points are modelled with the
`Err` sum below. Go recursion is unbounded; `readValueF` takes a fuel
parameter and the public entry points supply `stream length + 1` fuel,
which is always sufficient because every recursive descent first
consumes at least the one-byte tag.
-/

namespace Serde

/-- Error outcomes of a decode or encode call, one constructor per
distinct panic site of the source. -/
inductive Err where
  /-- Version byte differs from `bcVersion` (12). -/
  | versionMismatch
  /-- An `io.EOF` or `io.ErrUnexpectedEOF` surfaced by a read. -/
  | streamTruncated
  /-- Varint does not fit (`uint32 out of range`, `int32 out of range`,
  or the 64-bit varint overflow of `binary.ReadUvarint`). -/
  | overflow
  /-- Atom-table index 0 or beyond the table length. -/
  | atomOutOfRange
  /-- Tag byte with no decode support (`unsupported ...` panic). -/
  | unsupportedTag (t : Nat)
  /-- Typed array not followed by an `ArrayBuffer` record. -/
  | structuralError
  /-- Typed array count disagrees with the nested buffer count. -/
  | sizeMismatch
  /-- Typed array element-kind byte above 10. -/
  | badTypedArrayTag
  /-- `ReadObject` stream whose payload tag is not `tagObject`. -/
  | objectExpected
  /-- `reflect.Value.Set` panic: decoded value not assignable to the
  record field's type. -/
  | typeMismatch
  /-- `WriteValue` switch default: value variant with no encoder. -/
  | unsupportedValue
  /-- `writeUvarint` index-out-of-range panic on its 8-byte buffer. -/
  | bufferOverflow
  /-- Modelling artefact: recursion fuel exhausted. Never reached when
  the fuel exceeds the stream length, as the entry points arrange. -/
  | fuelExhausted
deriving DecidableEq

/-- A Go string: a raw byte sequence. -/
abbrev GoStr := List Nat

/-- A byte stream. -/
abbrev Stream := List Nat

/-- Decoded/encodable Go values, one constructor per dynamic Go type
that crosses the `serde` API. `bytes` is the Go `[]byte` type, which
the decoder produces for `ArrayBuffer` payloads and for the
`Uint8Array`/`Uint8ClampedArray` element kinds alike. `arrayBufferV`
and `uint8ClampedV` are the wrapper struct types `ArrayBuffer` and
`Uint8ClampedArray` accepted by the encoder. `float64`, `float32s`
and `float64s` carry the raw little-endian bit patterns. -/
inductive GoValue where
  | null
  | undef
  | bool (b : Bool)
  | int32 (i : Int)
  | float64 (bits : Nat)
  | str (s : GoStr)
  | object (props : List (GoStr × GoValue))
  | array (elems : List GoValue)
  | bytes (b : List Nat)
  | int8s (l : List Int)
  | int16s (l : List Int)
  | uint16s (l : List Nat)
  | int32s (l : List Int)
  | uint32s (l : List Nat)
  | int64s (l : List Int)
  | uint64s (l : List Nat)
  | float32s (l : List Nat)
  | float64s (l : List Nat)
  | arrayBufferV (b : List Nat)
  | uint8ClampedV (b : List Nat)

/-- Reader over the byte stream: returns a result and the remaining
stream, or the error that the corresponding Go panic raises. -/
abbrev P (α : Type) := Stream → Except Err (α × Stream)

/-- Sequencing of readers. -/
def pbind {α β : Type} (f : P α) (g : α → P β) : P β := fun s =>
  match f s with
  | .error e => .error e
  | .ok (a, s₁) => g a s₁

/-- Reader returning a value without consuming input. -/
def ppure {α : Type} (a : α) : P α := fun s => .ok (a, s)

/-- Reader that fails. -/
def pfail {α : Type} (e : Err) : P α := fun _ => .error e

/-- Repeat a reader a fixed number of times, collecting the results in
order; models the counted decode loops of the source. -/
def pcount {α : Type} : Nat → P α → P (List α)
  | 0, _ => ppure []
  | n + 1, f => pbind f fun a => pbind (pcount n f) fun as => ppure (a :: as)

/-- Model of `readByte`: one byte or an end-of-file panic. -/
def readByteG : P Nat := fun s =>
  match s with
  | [] => .error .streamTruncated
  | b :: s₁ => .ok (b, s₁)

/-- Model of a full-length read (`io.ReadFull`, as performed by
`binary.Read`): exactly `n` bytes or a truncation error. -/
def readExact (n : Nat) : P (List Nat) := fun s =>
  if s.length < n then .error .streamTruncated
  else .ok (s.take n, s.drop n)

/-- Model of the source `readBytes`: allocates `n` zero bytes and
issues a single `Read`. On a `bytes.Reader` the call returns up to `n`
of the available bytes and errors only when the stream is already
empty, so a short stream yields the available bytes with the
allocation's zero fill retained and the stream drained. -/
def readBytesGo (n : Nat) : P (List Nat) := fun s =>
  if n = 0 then .ok ([], s)
  else if s.isEmpty then .error .streamTruncated
  else if n ≤ s.length then .ok (s.take n, s.drop n)
  else .ok (s ++ List.replicate (n - s.length) 0, [])

/-- One round of the `binary.ReadUvarint` loop; the first argument
counts the remaining loop iterations out of `MaxVarintLen64 = 10`,
and reaching zero is the 64-bit overflow error. In the last permitted
iteration a final byte above 1 is also an overflow. -/
def ruLoop : Nat → Nat → Nat → P Nat
  | 0, _, _ => pfail .overflow
  | n + 1, x, sh =>
    pbind readByteG fun b =>
      if b < 128 then
        if n = 0 ∧ 1 < b then pfail .overflow
        else ppure (x + b * 2 ^ sh)
      else ruLoop n (x + b % 128 * 2 ^ sh) (sh + 7)

/-- Model of `binary.ReadUvarint`. -/
def readUvarintG : P Nat := ruLoop 10 0 0

/-- Model of `readUint32`: unsigned varint range-checked to 32 bits. -/
def readUint32G : P Nat :=
  pbind readUvarintG fun v =>
    if 4294967295 < v then pfail .overflow else ppure v

/-- Model of `binary.ReadVarint`: unsigned varint, zig-zag decoded. -/
def readVarintG : P Int :=
  pbind readUvarintG fun u =>
    if u % 2 = 1 then ppure (-(u / 2 : Nat) - 1) else ppure ((u / 2 : Nat))

/-- Little-endian byte fold. -/
def leNat : List Nat → Nat
  | [] => 0
  | b :: r => b + 256 * leNat r

/-- Regroup a little-endian byte list into words of `sz` bytes. -/
def groupLE (sz : Nat) : List Nat → List Nat
  | [] => []
  | b :: rest =>
    leNat (b :: rest.take (sz - 1)) :: groupLE sz (rest.drop (sz - 1))
termination_by l => l.length
decreasing_by simp; omega

/-- Two's-complement reading of a `bits`-wide word. -/
def toSigned (bits : Nat) (w : Nat) : Int :=
  if w < 2 ^ (bits - 1) then (w : Int) else (w : Int) - 2 ^ bits

/-- Model of `utf16.Decode`: code units to runes, pairing surrogates
and mapping unpaired surrogates to U+FFFD. -/
def utf16DecodeGo : List Nat → List Nat
  | [] => []
  | [u] => if u < 0xD800 ∨ 0xE000 ≤ u then [u] else [0xFFFD]
  | u :: u₂ :: rest₂ =>
    if u < 0xD800 ∨ 0xE000 ≤ u then u :: utf16DecodeGo (u₂ :: rest₂)
    else if u < 0xDC00 then
      if 0xDC00 ≤ u₂ ∧ u₂ < 0xE000 then
        (0x10000 + (u - 0xD800) * 0x400 + (u₂ - 0xDC00)) :: utf16DecodeGo rest₂
      else 0xFFFD :: utf16DecodeGo (u₂ :: rest₂)
    else 0xFFFD :: utf16DecodeGo (u₂ :: rest₂)

/-- UTF-8 encoding of one rune, as Go `string` conversion performs. -/
def utf8EncodeChar (c : Nat) : List Nat :=
  if c < 0x80 then [c]
  else if c < 0x800 then [0xC0 + c / 64, 0x80 + c % 64]
  else if c < 0x10000 then [0xE0 + c / 4096, 0x80 + c / 64 % 64, 0x80 + c % 64]
  else [0xF0 + c / 262144, 0x80 + c / 4096 % 64, 0x80 + c / 64 % 64, 0x80 + c % 64]

/-- Little-endian 16-bit regrouping for the wide-string path. -/
def leU16s : List Nat → List Nat
  | b₀ :: b₁ :: rest => (b₀ + 256 * b₁) :: leU16s rest
  | _ => []

/-- Model of `readString`: length varint whose low bit selects the
wide (UTF-16) form; the narrow form goes through `readBytes`, the wide
form through `binary.Read` of `n` 16-bit units. -/
def readStringG : P GoStr :=
  pbind readUint32G fun n =>
    if n % 2 = 1 then
      pbind (readExact (2 * (n / 2))) fun bs =>
        ppure ((utf16DecodeGo (leU16s bs)).flatMap utf8EncodeChar)
    else readBytesGo (n / 2)

/-- Decimal rendering of a non-negative integer, as `fmt.Sprintf` with
the `d` verb produces. -/
def decimalStr (n : Nat) : GoStr := (Nat.toDigits 10 n).map Char.toNat

/-- Model of `readAtom`: varint whose low bit selects a tagged-integer
key rendered in decimal; otherwise the remaining bits are a 1-based
atom-table index, range-checked. -/
def readAtomG (atoms : List GoStr) : P GoStr :=
  pbind readUint32G fun idx =>
    if idx % 2 = 1 then ppure (decimalStr (idx / 2))
    else if 0 < idx / 2 ∧ idx / 2 ≤ atoms.length then
      ppure (atoms.getD (idx / 2 - 1) [])
    else pfail .atomOutOfRange

/-- Model of `readHeader`: version byte check, atom count, atoms. -/
def readHeaderG : P (List GoStr) :=
  pbind readByteG fun version =>
    if version = 12 then
      pbind readUint32G fun count => pcount count readStringG
    else pfail .versionMismatch

/-- Go map write `m[atom] = value`: a later write to an existing key
overwrites it, a new key is appended. -/
def mapInsert (m : List (GoStr × GoValue)) (k : GoStr) (v : GoValue) :
    List (GoStr × GoValue) :=
  match m with
  | [] => [(k, v)]
  | (k₀, v₀) :: rest =>
    if k₀ = k then (k₀, v) :: rest else (k₀, v₀) :: mapInsert rest k v

/-- Byte width of each typed-array element kind 0–10. -/
def elemSize : Nat → Nat
  | 0 => 1 | 1 => 1 | 2 => 1
  | 3 => 2 | 4 => 2
  | 5 => 4 | 6 => 4
  | 7 => 8 | 8 => 8
  | 9 => 4
  | _ => 8

/-- Reinterpretation of the nested buffer's raw bytes as the selected
element kind, mirroring the per-kind `binary.Read` calls. Kinds 0
(`Uint8ClampedArray`) and 2 (`Uint8Array`) both produce Go `[]byte`. -/
def decodeElems (kind : Nat) (bs : List Nat) : GoValue :=
  match kind with
  | 0 => .bytes bs
  | 1 => .int8s (bs.map (toSigned 8))
  | 2 => .bytes bs
  | 3 => .int16s ((groupLE 2 bs).map (toSigned 16))
  | 4 => .uint16s (groupLE 2 bs)
  | 5 => .int32s ((groupLE 4 bs).map (toSigned 32))
  | 6 => .uint32s (groupLE 4 bs)
  | 7 => .int64s ((groupLE 8 bs).map (toSigned 64))
  | 8 => .uint64s (groupLE 8 bs)
  | 9 => .float32s (groupLE 4 bs)
  | _ => .float64s (groupLE 8 bs)

/-- Switch of `readValue` on an already-read tag byte, abstracted over
the reader used at the recursive positions. Tag numbering follows
`BCTagEnum`: 1 null, 2 undefined, 3 false, 4 true, 5 int32, 6 float64,
7 string, 8 object, 9 array, 14 typed array, 15 array buffer; every
other tag is the `unsupported` panic of the switch default. -/
def rvBranch (rv : P GoValue) (atoms : List GoStr) (tag : Nat) : P GoValue :=
  if tag = 1 then ppure .null
    else if tag = 2 then ppure .undef
    else if tag = 3 then ppure (.bool false)
    else if tag = 4 then ppure (.bool true)
    else if tag = 5 then
      pbind readVarintG fun i =>
        if i < -2147483648 ∨ 2147483647 < i then pfail .overflow
        else ppure (.int32 i)
    else if tag = 6 then
      pbind (readExact 8) fun bs => ppure (.float64 (leNat bs))
    else if tag = 7 then
      pbind readStringG fun s => ppure (.str s)
    else if tag = 8 then
      pbind readUint32G fun n =>
        pbind (pcount n (pbind (readAtomG atoms) fun k =>
            pbind rv fun v => ppure (k, v))) fun kvs =>
          ppure (.object (kvs.foldl (fun m kv => mapInsert m kv.1 kv.2) []))
    else if tag = 9 then
      pbind readUint32G fun n =>
        pbind (pcount n rv) fun vs => ppure (.array vs)
    else if tag = 15 then
      pbind readUint32G fun n =>
        pbind (readBytesGo n) fun bs => ppure (.bytes bs)
    else if tag = 14 then
      pbind readByteG fun kind =>
        pbind readUint32G fun n =>
          pbind readUint32G fun _offset =>
            pbind readByteG fun btag =>
              if btag = 15 then
                pbind readUint32G fun m =>
                  if m = n then
                    if kind ≤ 10 then
                      pbind (readExact (n * elemSize kind)) fun bs =>
                        ppure (decodeElems kind bs)
                    else pfail .badTypedArrayTag
                  else pfail .sizeMismatch
              else pfail .structuralError
    else pfail (.unsupportedTag tag)

/-- Body of `readValue`: read the tag byte, then dispatch. -/
def readValueBody (rv : P GoValue) (atoms : List GoStr) : P GoValue :=
  pbind readByteG (rvBranch rv atoms)

/-- Model of the recursive `readValue`, with explicit recursion fuel.
Each level consumes its tag byte before descending, so any fuel above
the stream length behaves as the unbounded Go recursion does. -/
def readValueF : Nat → List GoStr → P GoValue
  | 0, _ => pfail .fuelExhausted
  | fuel + 1, atoms => readValueBody (readValueF fuel atoms) atoms

/-- Header followed by one value: the composition performed by the
public `ReadValue`. -/
def parseStream (fuel : Nat) : P GoValue :=
  pbind readHeaderG fun atoms => readValueF fuel atoms

/-- Model of the public `ReadValue`: decode the header and one value,
discard whatever remains of the stream. -/
def ReadValueGo (s : Stream) : Except Err GoValue :=
  match parseStream (s.length + 1) s with
  | .ok (v, _) => .ok v
  | .error e => .error e

/-- The record type the Object Field Binder is verified against: the
Go struct with a single `int32` field named `k`, mirroring the record
shape used by the package's own `ReadObject` tests. -/
structure Rec where
  k : Int
deriving DecidableEq

/-- The byte sequence of the field name `k`. -/
def kName : GoStr := [107]

/-- The reflection-based `setField` specialised to `Rec`. A matching
name receives the zero value when the decoded value is Go `nil`
(an invalid `reflect.Value`), receives the decoded value when it is an
`int32` (the only decoder output assignable to an `int32` field), and
otherwise hits the `reflect.Value.Set` assignability panic; a
non-matching name is a silent no-op. -/
def setFieldRec (rec : Rec) (name : GoStr) (v : GoValue) : Except Err Rec :=
  if name = kName then
    match v with
    | .null => .ok ⟨0⟩
    | .int32 i => .ok ⟨i⟩
    | _ => .error .typeMismatch
  else .ok rec

/-- The property loop of `ReadObject`: key, value, field assignment,
repeated `count` times. The record travels through the loop the way
the Go pointer target does, so on an error the assignments already
made are kept alongside the returned error. -/
def readObjLoop (fuel : Nat) (atoms : List GoStr) :
    Nat → Rec → Stream → Rec × Option Err
  | 0, rec, _ => (rec, none)
  | n + 1, rec, s =>
    match readAtomG atoms s with
    | .error e => (rec, some e)
    | .ok (name, s₁) =>
      match readValueF fuel atoms s₁ with
      | .error e => (rec, some e)
      | .ok (v, s₂) =>
        match setFieldRec rec name v with
        | .error e => (rec, some e)
        | .ok rec₁ => readObjLoop fuel atoms n rec₁ s₂

/-- Model of the public `ReadObject` at record type `Rec`: header, an
`object` tag, then the property loop. The result pairs the caller's
record as it stands when the call returns with the returned error, if
any; trailing stream bytes are ignored. -/
def ReadObjectGo (rec : Rec) (s : Stream) : Rec × Option Err :=
  match readHeaderG s with
  | .error e => (rec, some e)
  | .ok (atoms, s₁) =>
    match readByteG s₁ with
    | .error e => (rec, some e)
    | .ok (tag, s₂) =>
      if tag = 8 then
        match readUint32G s₂ with
        | .error e => (rec, some e)
        | .ok (count, s₃) => readObjLoop (s.length + 1) atoms count rec s₃
      else (rec, some .objectExpected)

/-- LEB128 byte groups of an unsigned integer, least significant
first: the byte sequence `binary.PutUvarint` produces. -/
def leb128 (k : Nat) : List Nat :=
  if h : k < 128 then [k]
  else (k % 128 + 128) :: leb128 (k / 128)
decreasing_by exact Nat.div_lt_self (by omega) (by omega)

/-- Model of `writeUvarint`: `binary.PutUvarint` into a stack buffer
of 8 bytes, so a value needing nine or more groups is the slice
index-out-of-range panic. -/
def putUvarintE (v : Nat) : Except Err (List Nat) :=
  if v < 72057594037927936 then .ok (leb128 v) else .error .bufferOverflow

/-- Little-endian bytes of the low `sz` bytes of a word. -/
def natLEBytes : Nat → Nat → List Nat
  | 0, _ => []
  | sz + 1, w => w % 256 :: natLEBytes sz (w / 256)

/-- Little-endian two's-complement bytes of an integer, as
`binary.Write` emits for signed element types. -/
def intLEBytes (sz : Nat) (i : Int) : List Nat :=
  natLEBytes sz (i % ((2 : Int) ^ (8 * sz))).toNat

/-- Model of `writeTypedArray`: typed-array tag, element-kind byte,
count, the historical zero offset, then the nested array-buffer
record holding the little-endian element bytes. -/
def writeTypedArrayGo (n : Nat) (elemBytes : List Nat) (kind : Nat) :
    Except Err (List Nat) :=
  match putUvarintE n with
  | .error e => .error e
  | .ok cnt => .ok (14 :: kind :: cnt ++ 0 :: 15 :: cnt ++ elemBytes)

/-- Payload bytes of `WriteValue` for one value, following the source
switch: the four atoms, `ArrayBuffer`, and the eleven numeric slice
shapes are supported; every other variant is the `unsupported type`
panic. -/
def writePayload (v : GoValue) : Except Err (List Nat) :=
  match v with
  | .null => .ok [1]
  | .undef => .ok [2]
  | .bool b => .ok [if b then 4 else 3]
  | .arrayBufferV b =>
    match putUvarintE b.length with
    | .error e => .error e
    | .ok cnt => .ok (15 :: cnt ++ b)
  | .uint8ClampedV b => writeTypedArrayGo b.length b 0
  | .bytes b => writeTypedArrayGo b.length b 2
  | .int8s l => writeTypedArrayGo l.length (l.flatMap (intLEBytes 1)) 1
  | .int16s l => writeTypedArrayGo l.length (l.flatMap (intLEBytes 2)) 3
  | .uint16s l => writeTypedArrayGo l.length (l.flatMap (natLEBytes 2)) 4
  | .int32s l => writeTypedArrayGo l.length (l.flatMap (intLEBytes 4)) 5
  | .uint32s l => writeTypedArrayGo l.length (l.flatMap (natLEBytes 4)) 6
  | .int64s l => writeTypedArrayGo l.length (l.flatMap (intLEBytes 8)) 7
  | .uint64s l => writeTypedArrayGo l.length (l.flatMap (natLEBytes 8)) 8
  | .float32s l => writeTypedArrayGo l.length (l.flatMap (natLEBytes 4)) 9
  | .float64s l => writeTypedArrayGo l.length (l.flatMap (natLEBytes 8)) 10
  | _ => .error .unsupportedValue

/-- Model of the public `WriteValue`: the bytes a successful call
writes — the version byte, the varint count of the (always empty)
atom table, then the payload of the switch. An unsupported variant
returns the recovered panic as the error. -/
def WriteValueGo (v : GoValue) : Except Err (List Nat) :=
  match writePayload v with
  | .error e => .error e
  | .ok payload => .ok (12 :: 0 :: payload)

/-- Structural well-behavedness of a reader: a successful run leaves a
suffix of its input, and a run that ends with a nonempty remainder
never looked at that remainder, so the remainder can be replaced
freely. The second property is exactly what fails for the zero-fill
path of `readBytesGo`, which is why it is guarded by the nonemptiness
of the remainder. -/
structure PGood {α : Type} (f : P α) : Prop where
  suffix : ∀ s a r, f s = .ok (a, r) → List.IsSuffix r s
  tail : ∀ p t a, f (p ++ t) = .ok (a, t) → t ≠ [] →
    ∀ u, f (p ++ u) = .ok (a, u)

theorem ppure_eq {α : Type} (a : α) (s : Stream) : ppure a s = .ok (a, s) := rfl

theorem pfail_eq {α : Type} (e : Err) (s : Stream) :
    pfail (α := α) e s = .error e := rfl

/-- Success characterization of reader sequencing. -/
theorem pbind_ok {α β : Type} {f : P α} {g : α → P β} {s : Stream}
    {b : β} {r : Stream} :
    pbind f g s = .ok (b, r) ↔
      ∃ a m, f s = .ok (a, m) ∧ g a m = .ok (b, r) := by
  constructor
  · intro h
    simp only [pbind] at h
    cases hfs : f s with
    | error e => rw [hfs] at h; exact absurd h (by simp)
    | ok am =>
      obtain ⟨a, m⟩ := am
      rw [hfs] at h
      exact ⟨a, m, rfl, h⟩
  · rintro ⟨a, m, hf, hg⟩
    simp only [pbind, hf]
    exact hg

theorem pgood_ppure {α : Type} (a : α) : PGood (ppure a) := by
  constructor
  · intro s b r h
    rw [ppure_eq, Except.ok.injEq, Prod.mk.injEq] at h
    exact h.2 ▸ List.suffix_refl s
  · intro p t b h ht u
    rw [ppure_eq, Except.ok.injEq, Prod.mk.injEq] at h
    have hp : p = [] := by simpa using h.2
    subst hp
    simp [ppure, h.1]

theorem pgood_pfail {α : Type} (e : Err) : PGood (pfail (α := α) e) := by
  constructor
  · intro s a r h
    simp [pfail_eq] at h
  · intro p t a h
    simp [pfail_eq] at h

theorem pgood_readByteG : PGood readByteG := by
  constructor
  · intro s a r h
    cases s with
    | nil => simp [readByteG] at h
    | cons b s₁ =>
      simp only [readByteG, Except.ok.injEq, Prod.mk.injEq] at h
      rw [← h.2]
      exact ⟨[b], rfl⟩
  · intro p t a h ht u
    cases p with
    | nil =>
      cases t with
      | nil => exact absurd rfl ht
      | cons b t₁ =>
        simp only [List.nil_append, readByteG, Except.ok.injEq,
          Prod.mk.injEq] at h
        have := congrArg List.length h.2
        simp at this
    | cons b p₁ =>
      simp only [List.cons_append, readByteG, Except.ok.injEq,
        Prod.mk.injEq] at h
      have hp : p₁ = [] := by simpa using h.2
      subst hp
      simp [readByteG, ← h.1]

theorem pgood_readExact (n : Nat) : PGood (readExact n) := by
  constructor
  · intro s a r h
    simp only [readExact] at h
    split at h
    · simp at h
    · rw [Except.ok.injEq, Prod.mk.injEq] at h
      rw [← h.2]
      exact List.drop_suffix n s
  · intro p t a h ht u
    simp only [readExact] at h
    split at h
    · simp at h
    · rename_i hlen
      rw [Except.ok.injEq, Prod.mk.injEq] at h
      have hlen₂ : ¬ (p ++ t).length < n := hlen
      have hdl : ((p ++ t).drop n).length = t.length :=
        congrArg List.length h.2
      rw [List.length_drop, List.length_append] at hdl
      rw [List.length_append] at hlen₂
      have hn : n = p.length := by omega
      subst hn
      rw [List.take_left] at h
      obtain ⟨rfl, -⟩ := h
      simp only [readExact, List.length_append,
        if_neg (show ¬ p.length + u.length < p.length by omega),
        List.take_left, List.drop_left]

theorem pgood_readBytesGo (n : Nat) : PGood (readBytesGo n) := by
  constructor
  · intro s a r h
    simp only [readBytesGo] at h
    split at h
    · rw [Except.ok.injEq, Prod.mk.injEq] at h
      rw [← h.2]
    · split at h
      · simp at h
      · split at h
        · rw [Except.ok.injEq, Prod.mk.injEq] at h
          rw [← h.2]
          exact List.drop_suffix n s
        · rw [Except.ok.injEq, Prod.mk.injEq] at h
          rw [← h.2]
          exact List.nil_suffix
  · intro p t a h ht u
    simp only [readBytesGo] at h
    split at h
    · rename_i hn
      rw [Except.ok.injEq, Prod.mk.injEq] at h
      have hp : p = [] := by simpa using h.2
      subst hp
      obtain ⟨rfl, -⟩ := h
      simp only [readBytesGo, if_pos hn, List.nil_append]
    · split at h
      · simp at h
      · split at h
        · rename_i hn hne hlen
          rw [Except.ok.injEq, Prod.mk.injEq] at h
          have hdl : ((p ++ t).drop n).length = t.length :=
            congrArg List.length h.2
          rw [List.length_drop, List.length_append] at hdl
          rw [List.length_append] at hlen
          have hnp : n = p.length := by omega
          subst hnp
          rw [List.take_left] at h
          obtain ⟨rfl, -⟩ := h
          have hpne : p ≠ [] := by
            intro hc
            rw [hc] at hn
            simp at hn
          simp only [readBytesGo, List.length_append, if_neg hn,
            if_neg (show ¬ ((p ++ u).isEmpty = true) by
              simp [List.isEmpty_iff, hpne]),
            if_pos (show p.length ≤ p.length + u.length by omega),
            List.take_left, List.drop_left]
        · rw [Except.ok.injEq, Prod.mk.injEq] at h
          exact absurd h.2.symm ht

theorem pgood_pbind {α β : Type} {f : P α} {g : α → P β}
    (hf : PGood f) (hg : ∀ a, PGood (g a)) : PGood (pbind f g) := by
  constructor
  · intro s b r h
    obtain ⟨a, m, hfs, hgs⟩ := pbind_ok.mp h
    exact ((hg a).suffix m b r hgs).trans (hf.suffix s a m hfs)
  · intro p t b h ht u
    obtain ⟨a, m, hfs, hgs⟩ := pbind_ok.mp h
    obtain ⟨q₂, hq₂⟩ := (hg a).suffix m b t hgs
    obtain ⟨q, hq⟩ := hf.suffix (p ++ t) a m hfs
    have hm_ne : m ≠ [] := by
      intro hcon
      rw [hcon] at hq₂
      exact ht (List.append_eq_nil.mp hq₂).2
    have hp : p = q ++ q₂ := by
      have hqq : q ++ (q₂ ++ t) = p ++ t := by rw [hq₂, hq]
      rw [← List.append_assoc] at hqq
      exact (List.append_cancel_right hqq).symm
    subst hp
    have hfs₂ : f (q ++ m) = .ok (a, m) := by rw [hq]; exact hfs
    have hf₂ := hf.tail q m a hfs₂ hm_ne (q₂ ++ u)
    have hgs₂ : g a (q₂ ++ t) = .ok (b, t) := by rw [hq₂]; exact hgs
    have hg₂ := (hg a).tail q₂ t b hgs₂ ht u
    apply pbind_ok.mpr
    refine ⟨a, q₂ ++ u, ?_, hg₂⟩
    rw [List.append_assoc]
    exact hf₂

theorem pgood_pcount {α : Type} {f : P α} (hf : PGood f) :
    ∀ n, PGood (pcount n f)
  | 0 => pgood_ppure []
  | n + 1 =>
    pgood_pbind hf fun a =>
      pgood_pbind (pgood_pcount hf n) fun as => pgood_ppure (a :: as)

theorem pgood_ruLoop : ∀ n x sh, PGood (ruLoop n x sh)
  | 0, _, _ => pgood_pfail _
  | n + 1, x, sh =>
    pgood_pbind pgood_readByteG fun b => by
      by_cases hb : b < 128
      · rw [if_pos hb]
        by_cases hc : n = 0 ∧ 1 < b
        · rw [if_pos hc]
          exact pgood_pfail _
        · rw [if_neg hc]
          exact pgood_ppure _
      · rw [if_neg hb]
        exact pgood_ruLoop n _ _

theorem pgood_readUvarintG : PGood readUvarintG := pgood_ruLoop 10 0 0

theorem pgood_readUint32G : PGood readUint32G :=
  pgood_pbind pgood_readUvarintG fun v => by
    by_cases hv : 4294967295 < v
    · rw [if_pos hv]
      exact pgood_pfail _
    · rw [if_neg hv]
      exact pgood_ppure _

theorem pgood_readVarintG : PGood readVarintG :=
  pgood_pbind pgood_readUvarintG fun u => by
    by_cases hu : u % 2 = 1
    · rw [if_pos hu]
      exact pgood_ppure _
    · rw [if_neg hu]
      exact pgood_ppure _

theorem pgood_readStringG : PGood readStringG :=
  pgood_pbind pgood_readUint32G fun n => by
    by_cases hn : n % 2 = 1
    · rw [if_pos hn]
      exact pgood_pbind (pgood_readExact _) fun bs => pgood_ppure _
    · rw [if_neg hn]
      exact pgood_readBytesGo _

theorem pgood_readAtomG (atoms : List GoStr) : PGood (readAtomG atoms) :=
  pgood_pbind pgood_readUint32G fun idx => by
    by_cases h₁ : idx % 2 = 1
    · rw [if_pos h₁]
      exact pgood_ppure _
    · rw [if_neg h₁]
      by_cases h₂ : 0 < idx / 2 ∧ idx / 2 ≤ atoms.length
      · rw [if_pos h₂]
        exact pgood_ppure _
      · rw [if_neg h₂]
        exact pgood_pfail _

theorem pgood_readHeaderG : PGood readHeaderG :=
  pgood_pbind pgood_readByteG fun version => by
    by_cases hv : version = 12
    · rw [if_pos hv]
      exact pgood_pbind pgood_readUint32G fun count =>
        pgood_pcount pgood_readStringG count
    · rw [if_neg hv]
      exact pgood_pfail _

theorem pgood_rvBranch {rv : P GoValue} (hrv : PGood rv)
    (atoms : List GoStr) (tag : Nat) : PGood (rvBranch rv atoms tag) := by
  rw [rvBranch.eq_def]
  by_cases h1 : tag = 1
  · rw [if_pos h1]; exact pgood_ppure _
  rw [if_neg h1]
  by_cases h2 : tag = 2
  · rw [if_pos h2]; exact pgood_ppure _
  rw [if_neg h2]
  by_cases h3 : tag = 3
  · rw [if_pos h3]; exact pgood_ppure _
  rw [if_neg h3]
  by_cases h4 : tag = 4
  · rw [if_pos h4]; exact pgood_ppure _
  rw [if_neg h4]
  by_cases h5 : tag = 5
  · rw [if_pos h5]
    refine pgood_pbind pgood_readVarintG fun i => ?_
    by_cases hi : i < -2147483648 ∨ 2147483647 < i
    · rw [if_pos hi]; exact pgood_pfail _
    · rw [if_neg hi]; exact pgood_ppure _
  rw [if_neg h5]
  by_cases h6 : tag = 6
  · rw [if_pos h6]
    exact pgood_pbind (pgood_readExact 8) fun bs => pgood_ppure _
  rw [if_neg h6]
  by_cases h7 : tag = 7
  · rw [if_pos h7]
    exact pgood_pbind pgood_readStringG fun s => pgood_ppure _
  rw [if_neg h7]
  by_cases h8 : tag = 8
  · rw [if_pos h8]
    refine pgood_pbind pgood_readUint32G fun n => ?_
    refine pgood_pbind (pgood_pcount ?_ n) fun kvs => pgood_ppure _
    exact pgood_pbind (pgood_readAtomG atoms) fun k =>
      pgood_pbind hrv fun v => pgood_ppure _
  rw [if_neg h8]
  by_cases h9 : tag = 9
  · rw [if_pos h9]
    exact pgood_pbind pgood_readUint32G fun n =>
      pgood_pbind (pgood_pcount hrv n) fun vs => pgood_ppure _
  rw [if_neg h9]
  by_cases h15 : tag = 15
  · rw [if_pos h15]
    exact pgood_pbind pgood_readUint32G fun n =>
      pgood_pbind (pgood_readBytesGo n) fun bs => pgood_ppure _
  rw [if_neg h15]
  by_cases h14 : tag = 14
  · rw [if_pos h14]
    refine pgood_pbind pgood_readByteG fun kind => ?_
    refine pgood_pbind pgood_readUint32G fun n => ?_
    refine pgood_pbind pgood_readUint32G fun off => ?_
    refine pgood_pbind pgood_readByteG fun btag => ?_
    by_cases hb : btag = 15
    · rw [if_pos hb]
      refine pgood_pbind pgood_readUint32G fun m => ?_
      by_cases hm : m = n
      · rw [if_pos hm]
        by_cases hk : kind ≤ 10
        · rw [if_pos hk]
          exact pgood_pbind (pgood_readExact _) fun bs => pgood_ppure _
        · rw [if_neg hk]
          exact pgood_pfail _
      · rw [if_neg hm]
        exact pgood_pfail _
    · rw [if_neg hb]
      exact pgood_pfail _
  rw [if_neg h14]
  exact pgood_pfail _

theorem pgood_readValueBody {rv : P GoValue} (hrv : PGood rv)
    (atoms : List GoStr) : PGood (readValueBody rv atoms) :=
  pgood_pbind pgood_readByteG (pgood_rvBranch hrv atoms)

theorem pgood_readValueF : ∀ fuel atoms, PGood (readValueF fuel atoms)
  | 0, _ => pgood_pfail _
  | fuel + 1, atoms =>
    pgood_readValueBody (pgood_readValueF fuel atoms) atoms

theorem pgood_parseStream (fuel : Nat) : PGood (parseStream fuel) :=
  pgood_pbind pgood_readHeaderG fun atoms => pgood_readValueF fuel atoms

theorem readByteG_cons {b : Nat} {s : Stream} :
    readByteG (b :: s) = .ok (b, s) := rfl

theorem readByteG_ok {s : Stream} {b : Nat} {r : Stream}
    (h : readByteG s = .ok (b, r)) : s = b :: r := by
  cases s with
  | nil => simp [readByteG] at h
  | cons c s₁ =>
    rw [readByteG_cons, Except.ok.injEq, Prod.mk.injEq] at h
    rw [h.1, h.2]

theorem ruLoop_consumes : ∀ n x sh s a r,
    ruLoop n x sh s = .ok (a, r) → r.length < s.length := by
  intro n
  induction n with
  | zero => intro x sh s a r h; simp [ruLoop, pfail_eq] at h
  | succ n ih =>
    intro x sh s a r h
    rw [ruLoop] at h
    obtain ⟨b, s₁, hb, hrest⟩ := pbind_ok.mp h
    have hs : s = b :: s₁ := readByteG_ok hb
    subst hs
    by_cases hlt : b < 128
    · rw [if_pos hlt] at hrest
      by_cases hc : n = 0 ∧ 1 < b
      · rw [if_pos hc] at hrest
        simp [pfail_eq] at hrest
      · rw [if_neg hc, ppure_eq, Except.ok.injEq, Prod.mk.injEq] at hrest
        rw [← hrest.2]
        simp
    · rw [if_neg hlt] at hrest
      have := ih _ _ _ _ _ hrest
      simp only [List.length_cons]
      omega

theorem readUint32G_consumes {s : Stream} {a : Nat} {r : Stream}
    (h : readUint32G s = .ok (a, r)) : r.length < s.length := by
  obtain ⟨v, m, hv, hrest⟩ := pbind_ok.mp h
  have hm := ruLoop_consumes 10 0 0 s v m hv
  by_cases hlt : 4294967295 < v
  · rw [if_pos hlt] at hrest
    simp [pfail_eq] at hrest
  · rw [if_neg hlt, ppure_eq, Except.ok.injEq, Prod.mk.injEq] at hrest
    rw [← hrest.2]
    exact hm

theorem readAtomG_consumes {atoms : List GoStr} {s : Stream} {a : GoStr}
    {r : Stream} (h : readAtomG atoms s = .ok (a, r)) :
    r.length < s.length := by
  obtain ⟨idx, m, hidx, hrest⟩ := pbind_ok.mp h
  have hm := readUint32G_consumes hidx
  by_cases h₁ : idx % 2 = 1
  · rw [if_pos h₁, ppure_eq, Except.ok.injEq, Prod.mk.injEq] at hrest
    rw [← hrest.2]
    exact hm
  · rw [if_neg h₁] at hrest
    by_cases h₂ : 0 < idx / 2 ∧ idx / 2 ≤ atoms.length
    · rw [if_pos h₂, ppure_eq, Except.ok.injEq, Prod.mk.injEq] at hrest
      rw [← hrest.2]
      exact hm
    · rw [if_neg h₂] at hrest
      simp [pfail_eq] at hrest

theorem readValueBody_consumes {rv : P GoValue} (hrv : PGood rv)
    {atoms : List GoStr} {s : Stream} {v : GoValue} {r : Stream}
    (h : readValueBody rv atoms s = .ok (v, r)) : r.length < s.length := by
  obtain ⟨tag, s₁, hb, hrest⟩ := pbind_ok.mp h
  have hs : s = tag :: s₁ := readByteG_ok hb
  subst hs
  have := (pgood_rvBranch hrv atoms tag).suffix s₁ v r hrest
  have := this.length_le
  simp only [List.length_cons]
  omega

/-- Counted loops transfer between two element readers that agree on
runs whose input length is bounded by the budget `G` plus the length
of the leftover. Used to move `readValue` runs between fuel values. -/
theorem psim_pcount {α : Type} {el₁ el₂ : P α} (hsuf : PGood el₁) (G : Nat)
    (hsim : ∀ u a w, el₁ u = .ok (a, w) → u.length < G + w.length →
      el₂ u = .ok (a, w)) :
    ∀ n s as r, pcount n el₁ s = .ok (as, r) → s.length < G + r.length →
      pcount n el₂ s = .ok (as, r) := by
  intro n
  induction n with
  | zero => intro s as r h hlen; exact h
  | succ n ih =>
    intro s as r h hlen
    obtain ⟨a, m, ha, h₂⟩ := pbind_ok.mp h
    obtain ⟨as₁, r₀, hcnt, hp⟩ := pbind_ok.mp h₂
    rw [ppure_eq, Except.ok.injEq, Prod.mk.injEq] at hp
    obtain ⟨has, hr⟩ := hp
    subst hr
    have hrm : List.IsSuffix r₀ m :=
      (pgood_pcount hsuf n).suffix m as₁ r₀ hcnt
    have hms : List.IsSuffix m s := hsuf.suffix s a m ha
    have ha₂ := hsim s a m ha (by have := hrm.length_le; omega)
    have hcnt₂ := ih m as₁ r₀ hcnt (by have := hms.length_le; omega)
    exact pbind_ok.mpr ⟨a, m, ha₂,
      pbind_ok.mpr ⟨as₁, r₀, hcnt₂, by rw [ppure_eq, has]⟩⟩

/-- The `readValue` switch transfers between two recursive readers
related by the budgeted simulation, because each recursive descent
happens only after at least one further byte has been consumed. -/
theorem psim_rvBranch {rv₁ rv₂ : P GoValue} {atoms : List GoStr}
    (hsuf : PGood rv₁) (G : Nat)
    (hsim : ∀ u a w, rv₁ u = .ok (a, w) → u.length < G + w.length →
      rv₂ u = .ok (a, w)) :
    ∀ tag s v r, rvBranch rv₁ atoms tag s = .ok (v, r) →
      s.length < G + r.length → rvBranch rv₂ atoms tag s = .ok (v, r) := by
  intro tag s v r h hlen
  rw [rvBranch.eq_def] at h ⊢
  by_cases h1 : tag = 1
  · rw [if_pos h1] at h ⊢; exact h
  rw [if_neg h1] at h ⊢
  by_cases h2 : tag = 2
  · rw [if_pos h2] at h ⊢; exact h
  rw [if_neg h2] at h ⊢
  by_cases h3 : tag = 3
  · rw [if_pos h3] at h ⊢; exact h
  rw [if_neg h3] at h ⊢
  by_cases h4 : tag = 4
  · rw [if_pos h4] at h ⊢; exact h
  rw [if_neg h4] at h ⊢
  by_cases h5 : tag = 5
  · rw [if_pos h5] at h ⊢; exact h
  rw [if_neg h5] at h ⊢
  by_cases h6 : tag = 6
  · rw [if_pos h6] at h ⊢; exact h
  rw [if_neg h6] at h ⊢
  by_cases h7 : tag = 7
  · rw [if_pos h7] at h ⊢; exact h
  rw [if_neg h7] at h ⊢
  by_cases h8 : tag = 8
  · rw [if_pos h8] at h ⊢
    obtain ⟨n, s₂, hn, h₂⟩ := pbind_ok.mp h
    obtain ⟨kvs, r₀, hcnt, hp⟩ := pbind_ok.mp h₂
    rw [ppure_eq, Except.ok.injEq, Prod.mk.injEq] at hp
    obtain ⟨hv, hr⟩ := hp
    subst hr
    have hels : PGood (pbind (readAtomG atoms) fun k =>
        pbind rv₁ fun v => ppure (k, v)) :=
      pgood_pbind (pgood_readAtomG atoms) fun k =>
        pgood_pbind hsuf fun v => pgood_ppure _
    have helsim : ∀ u a w,
        (pbind (readAtomG atoms) fun k =>
          pbind rv₁ fun v => ppure (k, v)) u = .ok (a, w) →
        u.length < (G + 1) + w.length →
        (pbind (readAtomG atoms) fun k =>
          pbind rv₂ fun v => ppure (k, v)) u = .ok (a, w) := by
      intro u a w hu hb
      obtain ⟨k, w₁, hk, h₃⟩ := pbind_ok.mp hu
      obtain ⟨vv, w₂, hvv, h₄⟩ := pbind_ok.mp h₃
      rw [ppure_eq, Except.ok.injEq, Prod.mk.injEq] at h₄
      obtain ⟨hav, hw⟩ := h₄
      subst hw
      have hc := readAtomG_consumes hk
      have hrv₂ := hsim w₁ vv w₂ hvv (by omega)
      exact pbind_ok.mpr ⟨k, w₁, hk,
        pbind_ok.mpr ⟨vv, w₂, hrv₂, by rw [ppure_eq, hav]⟩⟩
    have hc₂ := readUint32G_consumes hn
    have hcnt₂ := psim_pcount hels (G + 1) helsim n s₂ kvs r₀ hcnt (by omega)
    exact pbind_ok.mpr ⟨n, s₂, hn,
      pbind_ok.mpr ⟨kvs, r₀, hcnt₂, by rw [ppure_eq, hv]⟩⟩
  rw [if_neg h8] at h ⊢
  by_cases h9 : tag = 9
  · rw [if_pos h9] at h ⊢
    obtain ⟨n, s₂, hn, h₂⟩ := pbind_ok.mp h
    obtain ⟨vs, r₀, hcnt, hp⟩ := pbind_ok.mp h₂
    rw [ppure_eq, Except.ok.injEq, Prod.mk.injEq] at hp
    obtain ⟨hv, hr⟩ := hp
    subst hr
    have hc₂ := readUint32G_consumes hn
    have hcnt₂ := psim_pcount hsuf G hsim n s₂ vs r₀ hcnt (by omega)
    exact pbind_ok.mpr ⟨n, s₂, hn,
      pbind_ok.mpr ⟨vs, r₀, hcnt₂, by rw [ppure_eq, hv]⟩⟩
  rw [if_neg h9] at h ⊢
  by_cases h15 : tag = 15
  · rw [if_pos h15] at h ⊢; exact h
  rw [if_neg h15] at h ⊢
  by_cases h14 : tag = 14
  · rw [if_pos h14] at h ⊢; exact h
  rw [if_neg h14] at h ⊢
  exact h

/-- A successful `readValue` run is reproduced at any fuel exceeding
the number of bytes the run consumed; in particular the recursion
depth that matters is bounded by the consumed input, never by the
value shape alone. -/
theorem readValueF_adjust : ∀ fuel atoms s v r,
    readValueF fuel atoms s = .ok (v, r) → ∀ fuel₂,
    s.length < fuel₂ + r.length → readValueF fuel₂ atoms s = .ok (v, r) := by
  intro fuel
  induction fuel with
  | zero => intro atoms s v r h; simp [readValueF, pfail_eq] at h
  | succ fuel ih =>
    intro atoms s v r h fuel₂ hlen
    rw [readValueF] at h
    have hcons := readValueBody_consumes (pgood_readValueF fuel atoms) h
    obtain ⟨fuel₃, rfl⟩ : ∃ f, fuel₂ = f + 1 := by
      cases fuel₂ with
      | zero => omega
      | succ f => exact ⟨f, rfl⟩
    rw [readValueF]
    obtain ⟨tag, s₁, hb, hrest⟩ := pbind_ok.mp h
    have hs : s = tag :: s₁ := readByteG_ok hb
    subst hs
    have hbr := psim_rvBranch (pgood_readValueF fuel atoms) fuel₃
      (fun u a w hu hw => ih atoms u a w hu fuel₃ hw)
      tag s₁ v r hrest (by simp only [List.length_cons] at hlen; omega)
    exact pbind_ok.mpr ⟨tag, s₁, hb, hbr⟩

/-- Fuel adjustment lifted to the header-plus-value parse. -/
theorem parseStream_adjust {fuel : Nat} {s : Stream} {v : GoValue}
    {r : Stream} (h : parseStream fuel s = .ok (v, r)) (fuel₂ : Nat)
    (hlen : s.length < fuel₂ + r.length) :
    parseStream fuel₂ s = .ok (v, r) := by
  obtain ⟨atoms, s₁, hh, hv⟩ := pbind_ok.mp h
  have hs₁ : List.IsSuffix s₁ s := pgood_readHeaderG.suffix s atoms s₁ hh
  have := hs₁.length_le
  exact pbind_ok.mpr ⟨atoms, s₁, hh,
    readValueF_adjust fuel atoms s₁ v r hv fuel₂ (by omega)⟩

/-- The `binary.ReadUvarint` loop reads back what `leb128` encodes, as
long as enough loop iterations remain; accumulated groups land at the
current shift. -/
theorem ruLoop_leb : ∀ n m k x sh s, k < 2 ^ (7 * (n + 1)) → n + 2 ≤ m →
    ruLoop m x sh (leb128 k ++ s) = .ok (x + k * 2 ^ sh, s) := by
  intro n
  induction n with
  | zero =>
    intro m k x sh s hk hm
    obtain ⟨m₁, rfl⟩ : ∃ m₁, m = m₁ + 1 := by
      cases m with
      | zero => omega
      | succ m₁ => exact ⟨m₁, rfl⟩
    have hk128 : k < 128 := by
      have : (2 : Nat) ^ (7 * (0 + 1)) = 128 := by norm_num
      omega
    rw [leb128, dif_pos hk128, ruLoop]
    refine pbind_ok.mpr ⟨k, s, readByteG_cons, ?_⟩
    rw [if_pos hk128, if_neg (by omega), ppure_eq]
  | succ n ih =>
    intro m k x sh s hk hm
    obtain ⟨m₁, rfl⟩ : ∃ m₁, m = m₁ + 1 := by
      cases m with
      | zero => omega
      | succ m₁ => exact ⟨m₁, rfl⟩
    by_cases hk128 : k < 128
    · rw [leb128, dif_pos hk128, ruLoop]
      refine pbind_ok.mpr ⟨k, s, readByteG_cons, ?_⟩
      rw [if_pos hk128, if_neg (by omega), ppure_eq]
    · rw [leb128, dif_neg hk128, ruLoop]
      refine pbind_ok.mpr ⟨k % 128 + 128, leb128 (k / 128) ++ s,
        readByteG_cons, ?_⟩
      rw [if_neg (by omega)]
      have hdiv : k / 128 < 2 ^ (7 * (n + 1)) := by
        rw [Nat.div_lt_iff_lt_mul (by norm_num)]
        calc k < 2 ^ (7 * (n + 1 + 1)) := hk
          _ = 2 ^ (7 * (n + 1)) * 128 := by
            rw [show 7 * (n + 1 + 1) = 7 * (n + 1) + 7 by ring, pow_add]
            norm_num
      have hmod : (k % 128 + 128) % 128 = k % 128 := by omega
      rw [hmod]
      rw [ih m₁ (k / 128) (x + k % 128 * 2 ^ sh) (sh + 7) s hdiv (by omega)]
      have hsum : x + k % 128 * 2 ^ sh + k / 128 * 2 ^ (sh + 7) =
          x + k * 2 ^ sh := by
        have hmd : k % 128 + 128 * (k / 128) = k := Nat.mod_add_div k 128
        calc x + k % 128 * 2 ^ sh + k / 128 * 2 ^ (sh + 7)
            = x + (k % 128 + 128 * (k / 128)) * 2 ^ sh := by
              rw [pow_add]
              ring
          _ = x + k * 2 ^ sh := by rw [hmd]
      rw [hsum]

/-- Unsigned varint round trip for values below 2^63. -/
theorem readUvarintG_leb (k : Nat) (s : Stream) (hk : k < 2 ^ 63) :
    readUvarintG (leb128 k ++ s) = .ok (k, s) := by
  have := ruLoop_leb 8 10 k 0 0 s (by norm_num at hk ⊢; omega) (by omega)
  simpa [readUvarintG] using this

/-- The `readUint32` round trip for 32-bit values. -/
theorem readUint32G_leb (k : Nat) (s : Stream) (hk : k ≤ 4294967295) :
    readUint32G (leb128 k ++ s) = .ok (k, s) := by
  refine pbind_ok.mpr ⟨k, s, readUvarintG_leb k s (by norm_num at hk ⊢; omega), ?_⟩
  rw [if_neg (by omega), ppure_eq]

/-- Wire bytes of an array nested `d` levels deep around a null:
each level is the array tag and a count of one. -/
def nestBytes : Nat → Stream
  | 0 => [1]
  | d + 1 => 9 :: 1 :: nestBytes d

/-- The value those bytes denote: `d` singleton arrays around null. -/
def nestVal : Nat → GoValue
  | 0 => .null
  | d + 1 => .array [nestVal d]

theorem nestBytes_length : ∀ d, (nestBytes d).length = 2 * d + 1 := by
  intro d
  induction d with
  | zero => rfl
  | succ d ih => simp [nestBytes, ih]; omega

theorem readUint32G_small (b : Nat) (s : Stream) (hb : b < 128) :
    readUint32G (b :: s) = .ok (b, s) := by
  have := readUint32G_leb b s (by omega)
  rwa [leb128, dif_pos hb] at this

theorem nest_parse : ∀ d fuel s, d < fuel →
    readValueF fuel [] (nestBytes d ++ s) = .ok (nestVal d, s) := by
  intro d
  induction d with
  | zero =>
    intro fuel s hf
    obtain ⟨f, rfl⟩ : ∃ f, fuel = f + 1 := by
      cases fuel with
      | zero => omega
      | succ f => exact ⟨f, rfl⟩
    rw [show nestBytes 0 ++ s = 1 :: s from rfl, readValueF, readValueBody]
    refine pbind_ok.mpr ⟨1, s, readByteG_cons, ?_⟩
    rw [rvBranch.eq_def, if_pos rfl]
    rw [show nestVal 0 = .null from rfl, ppure_eq]
  | succ d ih =>
    intro fuel s hf
    obtain ⟨f, rfl⟩ : ∃ f, fuel = f + 1 := by
      cases fuel with
      | zero => omega
      | succ f => exact ⟨f, rfl⟩
    rw [show nestBytes (d + 1) ++ s = 9 :: 1 :: (nestBytes d ++ s) from rfl,
      readValueF, readValueBody]
    refine pbind_ok.mpr ⟨9, 1 :: (nestBytes d ++ s), readByteG_cons, ?_⟩
    rw [rvBranch.eq_def, if_neg (by norm_num), if_neg (by norm_num),
      if_neg (by norm_num), if_neg (by norm_num), if_neg (by norm_num),
      if_neg (by norm_num), if_neg (by norm_num), if_neg (by norm_num),
      if_pos rfl]
    refine pbind_ok.mpr ⟨1, nestBytes d ++ s,
      readUint32G_small 1 _ (by norm_num), ?_⟩
    have hd : readValueF f [] (nestBytes d ++ s) = .ok (nestVal d, s) :=
      ih f s (by omega)
    refine pbind_ok.mpr ⟨[nestVal d], s, ?_, ?_⟩
    · rw [pcount]
      refine pbind_ok.mpr ⟨nestVal d, s, hd, ?_⟩
      exact pbind_ok.mpr ⟨[], s, rfl, rfl⟩
    · rw [show nestVal (d + 1) = .array [nestVal d] from rfl, ppure_eq]

/-- Forward step of reader sequencing on an established read. -/
theorem pbind_step {α β : Type} {f : P α} {g : α → P β} {s : Stream}
    {a : α} {m : Stream} (h : f s = .ok (a, m)) : pbind f g s = g a m := by
  simp [pbind, h]

/-- Claim C1: the spec requires every Object/Array/TypedArray descent
to bump a recursion-depth counter checked against a configurable
bound, failing with DepthExceeded beyond it. The code has no depth
counter at all: an array nested to any depth `d` — in particular
beyond any configured bound such as 1000 — decodes successfully
rather than failing. -/
theorem c1_no_depth_limit (d : Nat) :
    ReadValueGo (12 :: 0 :: nestBytes d) = .ok (nestVal d) := by
  have hps : parseStream ((12 :: 0 :: nestBytes d).length + 1)
      (12 :: 0 :: nestBytes d) = .ok (nestVal d, []) := by
    refine pbind_ok.mpr ⟨[], nestBytes d, rfl, ?_⟩
    have hlen := nestBytes_length d
    have := nest_parse d ((12 :: 0 :: nestBytes d).length + 1) []
      (by simp only [List.length_cons]; omega)
    rwa [List.append_nil] at this
  rw [ReadValueGo, hps]

/-- Claim C2: the spec requires a short read — fewer bytes available
than a declared length demands — to fail with StreamTruncated, never
zero-fill. The code's `readBytes` issues a single `Read` instead of a
full read, so an ArrayBuffer that declares two bytes over a stream
holding only one decodes successfully to the available byte plus a
zero fill. -/
theorem c2_short_read_zero_fill :
    ReadValueGo [12, 0, 15, 2, 42] = .ok (.bytes [42, 0]) := rfl

/-- Claim C3 counterexample: a `ReadObject` call that zeroes field `k`
from the stream's first property and then fails on a truncated second
property returns the error together with a record that differs from
the caller's original record — the earlier field assignment is not
rolled back. -/
theorem c3_partial_mutation_cx :
    ReadObjectGo ⟨42⟩ [12, 1, 2, 107, 8, 2, 2, 1] =
      (⟨0⟩, some .streamTruncated) ∧ (⟨0⟩ : Rec) ≠ ⟨42⟩ := by
  exact ⟨rfl, by decide⟩

/-- Claim C3 as amended: when decoding fails the caller receives the
error and no decoded result value, but `ReadObject` applies field
assignments eagerly as properties are decoded, so assignments made
before the error persist in the caller-supplied record: whatever the
record held initially, the failing call leaves field `k` zeroed by the
first decoded property and reports the truncation error. -/
theorem c3_error_with_persisting_assignment (rec : Rec) :
    ReadObjectGo rec [12, 1, 2, 107, 8, 2, 2, 1] =
      (⟨0⟩, some .streamTruncated) := rfl

/-- Claim C4 counterexample: the claim says a decoded Undefined
assigns the matching field's zero value, but `setField` only treats Go
`nil` (an invalid reflect value) as zero; `Undefined` is a concrete
struct value that is not assignable to an `int32` field, so the call
fails with the type-mismatch panic and leaves the field untouched
instead of zeroing it and succeeding. -/
theorem c4_undefined_cx :
    ReadObjectGo ⟨42⟩ [12, 1, 2, 107, 8, 1, 2, 2] =
      (⟨42⟩, some .typeMismatch) ∧
    ((⟨42⟩ : Rec), (some Err.typeMismatch : Option Err)) ≠
      ((⟨0⟩ : Rec), (none : Option Err)) := by
  exact ⟨rfl, by decide⟩

/-- Claim C4 as amended: for a decoded key matching the record field
by exact name, the binder assigns the zero value when the decoded
value is Null, assigns the value itself when its type is compatible
with the field's declared type (an `int32` value into the `int32`
field), and fails with TypeMismatch otherwise — including for
Undefined; keys matching no field are silently skipped, the supplied
record passing through unchanged. -/
theorem c4_field_binder (rec : Rec) :
    setFieldRec rec kName .null = .ok ⟨0⟩ ∧
    (∀ i : Int, setFieldRec rec kName (.int32 i) = .ok ⟨i⟩) ∧
    setFieldRec rec kName .undef = .error .typeMismatch ∧
    (∀ (name : GoStr) (v : GoValue), name ≠ kName →
      setFieldRec rec name v = .ok rec) ∧
    ReadObjectGo ⟨42⟩ [12, 1, 2, 106, 8, 1, 2, 4] = (⟨42⟩, none) := by
  refine ⟨rfl, fun i => rfl, rfl, ?_, rfl⟩
  intro name v hname
  rw [setFieldRec.eq_def, if_neg hname]

/-- Witness for C4: the binder skips a key that names no field. -/
theorem c4_field_binder_witness :
    setFieldRec ⟨7⟩ [106] .null = .ok ⟨7⟩ :=
  (c4_field_binder ⟨7⟩).2.2.2.1 [106] .null (by decide)

/-- Claim C5 counterexample: the encoder supports the ArrayBuffer
variant, but decoding its encoding yields the raw byte sequence as a
plain Go byte slice, a value of a different dynamic type than the
ArrayBuffer wrapper that was encoded, so decode after encode is not
the identity on every encoder-supported variant. -/
theorem c5_arraybuffer_cx :
    WriteValueGo (.arrayBufferV [42]) = .ok [12, 0, 15, 1, 42] ∧
    ReadValueGo [12, 0, 15, 1, 42] = .ok (.bytes [42]) ∧
    GoValue.bytes [42] ≠ GoValue.arrayBufferV [42] := by
  have hleb : leb128 1 = [1] := by
    rw [leb128]
    norm_num
  have hpay : writePayload (.arrayBufferV [42]) = .ok [15, 1, 42] := by
    rw [writePayload.eq_def]
    simp [putUvarintE, hleb]
  refine ⟨?_, rfl, ?_⟩
  · rw [WriteValueGo, hpay]
  · intro h
    exact GoValue.noConfusion h

/-- Claim C5 as amended: decode after encode is the identity on the
variants Null, Undefined, true and false — the variants the spec lists
— but not on every encoder-supported variant, since an ArrayBuffer
decodes back as its raw byte sequence. -/
theorem c5_roundtrip_atoms :
    (WriteValueGo .null).bind ReadValueGo = .ok .null ∧
    (WriteValueGo .undef).bind ReadValueGo = .ok .undef ∧
    (WriteValueGo (.bool true)).bind ReadValueGo = .ok (.bool true) ∧
    (WriteValueGo (.bool false)).bind ReadValueGo = .ok (.bool false) :=
  ⟨rfl, rfl, rfl, rfl⟩

/-- Claim C6: both decode operations reject any stream whose first
byte is not the supported version constant 12 with VersionMismatch,
whatever bytes follow and whatever record is supplied. -/
theorem c6_version_mismatch (b : Nat) (s : Stream) (rec : Rec)
    (hb : b ≠ 12) :
    ReadValueGo (b :: s) = .error .versionMismatch ∧
    ReadObjectGo rec (b :: s) = (rec, some .versionMismatch) := by
  have hh : readHeaderG (b :: s) = .error .versionMismatch := by
    rw [readHeaderG, pbind_step readByteG_cons, if_neg hb, pfail_eq]
  constructor
  · rw [ReadValueGo, parseStream]
    simp [pbind, hh]
  · rw [ReadObjectGo, hh]

/-- Witness for C6 at version byte 11. -/
theorem c6_version_mismatch_witness :
    ReadValueGo (11 :: [0, 1]) = .error .versionMismatch ∧
    ReadObjectGo ⟨5⟩ (11 :: [0, 1]) = ((⟨5⟩ : Rec), some .versionMismatch) :=
  c6_version_mismatch 11 [0, 1] ⟨5⟩ (by decide)

/-- Claim C7: an object-key atom reference is one varint; a set low
bit makes the key the decimal string of the remaining bits, a clear
low bit makes the remaining shifted bits a 1-based atom-table index,
with index zero or an index beyond the table length failing with
AtomOutOfRange. -/
theorem c7_atom_decode (atoms : List GoStr) (k : Nat) (s : Stream)
    (hk : k ≤ 4294967295) :
    (k % 2 = 1 → readAtomG atoms (leb128 k ++ s) =
      .ok (decimalStr (k / 2), s)) ∧
    (k % 2 = 0 → 1 ≤ k / 2 → k / 2 ≤ atoms.length →
      readAtomG atoms (leb128 k ++ s) = .ok (atoms.getD (k / 2 - 1) [], s)) ∧
    (k % 2 = 0 → (k / 2 = 0 ∨ atoms.length < k / 2) →
      readAtomG atoms (leb128 k ++ s) = .error .atomOutOfRange) := by
  have hu : readAtomG atoms (leb128 k ++ s) =
      (if k % 2 = 1 then ppure (decimalStr (k / 2))
       else if 0 < k / 2 ∧ k / 2 ≤ atoms.length then
         ppure (atoms.getD (k / 2 - 1) [])
       else pfail .atomOutOfRange) s := by
    rw [readAtomG, pbind_step (readUint32G_leb k s hk)]
  refine ⟨?_, ?_, ?_⟩
  · intro hodd
    rw [hu, if_pos hodd, ppure_eq]
  · intro heven h₁ h₂
    rw [hu, if_neg (by omega), if_pos (by omega), ppure_eq]
  · intro heven hout
    rw [hu, if_neg (by omega), if_neg (by omega), pfail_eq]

/-- Witness for C7: tag value 42 (varint byte 85) decodes to the key
rendered as the decimal text of 42. -/
theorem c7_atom_decode_witness :
    readAtomG [] (leb128 85 ++ []) = .ok (decimalStr (85 / 2), []) :=
  (c7_atom_decode [] 85 [] (by norm_num)).1 (by norm_num)

/-- Claim C8: a TypedArray record whose nested ArrayBuffer declares an
element count different from the typed array's own count fails with
SizeMismatch, for any valid element-kind byte and any in-range counts
and historical offset. -/
theorem c8_size_mismatch (fuel : Nat) (atoms : List GoStr)
    (kind n off m : Nat) (rest : Stream) (_hkind : kind ≤ 10)
    (hn : n ≤ 4294967295) (hoff : off ≤ 4294967295)
    (hm : m ≤ 4294967295) (hne : m ≠ n) :
    readValueF (fuel + 1) atoms
      (14 :: kind :: (leb128 n ++ (leb128 off ++ (15 :: (leb128 m ++ rest))))) =
      .error .sizeMismatch := by
  rw [readValueF, readValueBody, pbind_step readByteG_cons,
    rvBranch.eq_def, if_neg (by norm_num), if_neg (by norm_num),
    if_neg (by norm_num), if_neg (by norm_num), if_neg (by norm_num),
    if_neg (by norm_num), if_neg (by norm_num), if_neg (by norm_num),
    if_neg (by norm_num), if_neg (by norm_num), if_pos rfl,
    pbind_step readByteG_cons, pbind_step (readUint32G_leb n _ hn),
    pbind_step (readUint32G_leb off _ hoff), pbind_step readByteG_cons,
    if_pos rfl, pbind_step (readUint32G_leb m _ hm), if_neg hne, pfail_eq]

/-- Witness for C8: a Uint8Array claiming one element over a nested
buffer claiming two fails with SizeMismatch. -/
theorem c8_size_mismatch_witness :
    readValueF 1 []
      (14 :: 2 :: (leb128 1 ++ (leb128 0 ++ (15 :: (leb128 2 ++ []))))) =
      .error .sizeMismatch :=
  c8_size_mismatch 0 [] 2 1 0 2 [] (by norm_num) (by norm_num)
    (by norm_num) (by norm_num) (by norm_num)

/-- Claim C9 counterexample: the stream `[12,0,15,2,42,7]` has the
proper prefix `[12,0,15,2,42]` on which ReadValue succeeds consuming
every byte, yet ReadValue on the longer stream returns a different
value — the extra trailing byte is not ignored, because the prefix's
parse had gone through the zero-filling short read. -/
theorem c9_trailing_cx :
    ReadValueGo [12, 0, 15, 2, 42] = .ok (.bytes [42, 0]) ∧
    ReadValueGo [12, 0, 15, 2, 42, 7] = .ok (.bytes [42, 7]) ∧
    GoValue.bytes [42, 7] ≠ GoValue.bytes [42, 0] := by
  refine ⟨rfl, rfl, ?_⟩
  intro h
  simp at h

/-- Claim C9 as amended: trailing bytes after a complete header and
value are ignored provided the value's parse genuinely ends before the
trailing bytes — witnessed by the parse leaving that nonempty tail
untouched. In that case replacing the tail with any other bytes, more
or fewer, still yields the same decoded value and no error. A prefix
that only parses completely via the zero-filling short read is exempt,
as the counterexample shows. -/
theorem c9_trailing_ignored (p t u : Stream) (v : GoValue)
    (hp : parseStream ((p ++ t).length + 1) (p ++ t) = .ok (v, t))
    (ht : t ≠ []) :
    ReadValueGo (p ++ u) = .ok v := by
  have h₂ := (pgood_parseStream ((p ++ t).length + 1)).tail p t v hp ht u
  have h₃ := parseStream_adjust h₂ ((p ++ u).length + 1)
    (by simp only [List.length_append]; omega)
  rw [ReadValueGo, h₃]

/-- Witness for C9: a null value decoded from the prefix `[12,0,1]` is
insensitive to what follows it. -/
theorem c9_trailing_ignored_witness :
    ReadValueGo ([12, 0, 1] ++ [5, 6, 7]) = .ok .null :=
  c9_trailing_ignored [12, 0, 1] [9] [5, 6, 7] .null rfl (by decide)

/-- Claim C10: every byte stream a successful WriteValue call produces
begins with the version byte 12 followed by the varint 0 for the
always-empty atom table, whatever value was encoded. -/
theorem c10_header_prefix (v : GoValue) (bs : List Nat)
    (h : WriteValueGo v = .ok bs) : ∃ rest, bs = 12 :: 0 :: rest := by
  rw [WriteValueGo] at h
  cases hp : writePayload v with
  | error e => rw [hp] at h; exact absurd h (by simp)
  | ok payload =>
    rw [hp] at h
    rw [Except.ok.injEq] at h
    exact ⟨payload, h.symm⟩

/-- Witness for C10 at the null value. -/
theorem c10_header_prefix_witness : ∃ rest, [12, 0, 1] = 12 :: 0 :: rest :=
  c10_header_prefix .null [12, 0, 1] rfl
